import Mathlib

/-!
A verification development for the SNOC repository: a SNOBOL-inspired,
cursor-based string pattern-matching library (`src/SNO/sno.c`).

The subject/cursor/view/mark state is embedded shallowly: pointers into the
subject buffer become natural-number offsets, the subject text becomes a
`List Char`, and each C primitive becomes a Lean function returning the C
`bool` result together with the updated state.  Reading the character at the
cursor mirrors C string semantics: positions at or past `text.length` read
the null terminator.
-/

namespace SNOC

/-- The C null terminator character. -/
def nullc : Char := Char.ofNat 0

/-- The parsing context `sno_subject_t`.  The C struct holds `str` (pointers
to the subject buffer), `view` (the current match span, whose `end` is the
cursor), `mark` (capture anchor) and the cached `length`.  Here `text` is the
list of characters of the bound subject (everything before the terminator,
so `length = text.length`), and the pointers become offsets from the subject
start: `view_begin`/`view_end` model `view.begin`/`view.end`, `mark` models
the mark pointer. -/
structure sno_subject_t where
  text : List Char
  view_begin : Nat
  view_end : Nat
  mark : Nat
deriving DecidableEq, Repr

/-- Reading `text` at offset `i` the way C dereferences a pointer into a
null-terminated buffer: in-range offsets yield the character, the offset of
the terminator (and beyond) yields `'\0'`. -/
def charAtL (t : List Char) (i : Nat) : Char :=
  if h : i < t.length then t.get ⟨i, h⟩ else nullc

/-- Character at offset `i` of the bound subject. -/
def charAt (s : sno_subject_t) (i : Nat) : Char := charAtL s.text i

/-- `sno_bind`: binds a subject string, scanning to the first null terminator
to compute `length`, and initializes view and mark to the subject start. -/
def sno_bind (c : List Char) : sno_subject_t :=
  { text := c.takeWhile (fun ch => ch != nullc)
    view_begin := 0
    view_end := 0
    mark := 0 }

/-- `sno_reset`: fails (returning `false`) on a NULL context, modelled as
`none`; otherwise returns view and mark to the subject start. -/
def sno_reset : Option sno_subject_t → Bool × Option sno_subject_t
  | none => (false, none)
  | some s => (true, some { s with view_begin := 0, view_end := 0, mark := 0 })

/-- `sno_lit`: match a single literal character at the cursor. -/
def sno_lit (s : sno_subject_t) (ch : Char) : Bool × sno_subject_t :=
  let pos := s.view_end
  if charAt s pos ≠ ch then (false, s)
  else (true, { s with view_begin := s.view_end, view_end := pos + 1 })

/-- `sno_len`: match exactly `n` characters.  The C test is
`view.end + n >= str.end` where `str.end` is one past the terminator,
i.e. offset `text.length + 1`. -/
def sno_len (s : sno_subject_t) (n : Nat) : Bool × sno_subject_t :=
  let pos := s.view_end + n
  if pos ≥ s.text.length + 1 then (false, s)
  else (true, { s with view_begin := s.view_end, view_end := pos })

/-- Number of steps the scanning loop `while (*pos && q(*pos)) pos++` takes
over the remaining characters `u`; once the loop reaches the end of `u` the
next read yields the terminator, for which `q` is false. -/
def runLen (q : Char → Bool) : List Char → Nat
  | [] => 0
  | ch :: rest => if q ch then runLen q rest + 1 else 0

/-- The offset where the scanning loop of `sno_span`/`sno_break` stops when
started at offset `i` of the text `t`. -/
def runEnd (t : List Char) (q : Char → Bool) (i : Nat) : Nat :=
  i + runLen q (t.drop i)

/-- `sno_span`: consume the maximal run of characters in `set`
(`while(*pos && strchr(set, *pos))`); requires at least one. -/
def sno_span (s : sno_subject_t) (set : List Char) : Bool × sno_subject_t :=
  let start := s.view_end
  let pos := runEnd s.text (fun ch => ch != nullc && set.contains ch) start
  if pos = start then (false, s)
  else (true, { s with view_begin := start, view_end := pos })

/-- `sno_break`: consume the maximal (possibly empty) run of characters not
in `set` (`while(*pos && !strchr(set, *pos))`); always succeeds. -/
def sno_break (s : sno_subject_t) (set : List Char) : Bool × sno_subject_t :=
  let start := s.view_end
  let pos := runEnd s.text (fun ch => ch != nullc && !set.contains ch) start
  (true, { s with view_begin := start, view_end := pos })

/-- `sno_var`: extract the current view span `[view.begin, view.end)` into a
caller buffer of capacity `buflen`.  The context is never mutated (the C
code writes only to `buf`), so the function returns the success flag and
the written characters. -/
def sno_var (s : sno_subject_t) (buflen : Nat) : Bool × List Char :=
  if buflen = 0 then (false, [])
  else
    let len := s.view_end - s.view_begin
    if len ≥ buflen then (false, [])
    else (true, (s.text.drop s.view_begin).take len)

/-- `sno_len_var`: atomic `sno_len` followed by `sno_var`; on extraction
failure the saved view (both fields) is restored. -/
def sno_len_var (s : sno_subject_t) (n buflen : Nat) : Bool × sno_subject_t :=
  let vb := s.view_begin
  let ve := s.view_end
  match sno_len s n with
  | (false, s1) => (false, s1)
  | (true, s1) =>
    if (sno_var s1 buflen).1 then (true, s1)
    else (false, { s1 with view_begin := vb, view_end := ve })

/-- `sno_mark`: set the capture mark to the current cursor. -/
def sno_mark (s : sno_subject_t) : Bool × sno_subject_t :=
  (true, { s with mark := s.view_end })

/-- `sno_cap`: extract the span `[mark, view.end)` into a caller buffer;
the context is never mutated. -/
def sno_cap (s : sno_subject_t) (buflen : Nat) : Bool × List Char :=
  if buflen = 0 then (false, [])
  else
    let len := s.view_end - s.mark
    if len ≥ buflen then (false, [])
    else (true, (s.text.drop s.mark).take len)

/-- `sno_any`: match one character that is in `set`. -/
def sno_any (s : sno_subject_t) (set : List Char) : Bool × sno_subject_t :=
  let pos := s.view_end
  if charAt s pos = nullc ∨ ¬ set.contains (charAt s pos) then (false, s)
  else (true, { s with view_begin := pos, view_end := pos + 1 })

/-- `sno_notany`: match one character that is not in `set`. -/
def sno_notany (s : sno_subject_t) (set : List Char) : Bool × sno_subject_t :=
  let pos := s.view_end
  if charAt s pos = nullc ∨ set.contains (charAt s pos) then (false, s)
  else (true, { s with view_begin := pos, view_end := pos + 1 })

/-- `sno_tab`: move the cursor to absolute offset `n`; fails on leftward
movement (`n < cur`) or overshoot (`n > length`). -/
def sno_tab (s : sno_subject_t) (n : Nat) : Bool × sno_subject_t :=
  let cur := s.view_end
  if n < cur ∨ n > s.text.length then (false, s)
  else (true, { s with view_begin := s.view_end, view_end := n })

/-- `sno_rtab`: move the cursor to offset `length - n`; fails if `n > length`
or if the target is left of the cursor. -/
def sno_rtab (s : sno_subject_t) (n : Nat) : Bool × sno_subject_t :=
  if n > s.text.length then (false, s)
  else
    let cur := s.view_end
    let target := s.text.length - n
    if target < cur then (false, s)
    else (true, { s with view_begin := s.view_end, view_end := target })

/-- `sno_rem`: consume everything from the cursor to end-of-text
(`str.end - 1`, offset `length`); always succeeds. -/
def sno_rem (s : sno_subject_t) : Bool × sno_subject_t :=
  (true, { s with view_begin := s.view_end, view_end := s.text.length })

/-- The `sno_rollback` macro: set both view fields to `pos` and report
failure. -/
def sno_rollback (s : sno_subject_t) (pos : Nat) : Bool × sno_subject_t :=
  (false, { s with view_begin := pos, view_end := pos })

mutual
/-- Body of `sno_bal`, with an explicit fuel argument bounding the call
depth (C recursion needs none; the wrapper `sno_bal` supplies enough fuel
for every execution, see `sno_bal_matches_balanced`).  Matches the opening
delimiter, then runs the interior loop. -/
def sno_balF : Nat → sno_subject_t → Char → Char → Bool × sno_subject_t
  | 0, s, _, _ => (false, s)
  | fuel + 1, s, o, c =>
    let start := s.view_end
    match sno_lit s o with
    | (false, s1) => (false, s1)
    | (true, s1) => sno_balLoopF fuel s1 o c start

/-- The interior loop of `sno_bal`: `while (*view.end && *view.end != close)`
consume either a nested balanced group or one non-delimiter character, then
require the closing delimiter; every failure rolls back to `start`. -/
def sno_balLoopF : Nat → sno_subject_t → Char → Char → Nat → Bool × sno_subject_t
  | 0, s, _, _, start => sno_rollback s start
  | fuel + 1, s, o, c, start =>
    let ch := charAt s s.view_end
    if ch ≠ nullc ∧ ch ≠ c then
      if ch = o then
        match sno_balF fuel s o c with
        | (false, s1) => sno_rollback s1 start
        | (true, s1) => sno_balLoopF fuel s1 o c start
      else
        match sno_notany s [o, c] with
        | (false, s1) => sno_rollback s1 start
        | (true, s1) => sno_balLoopF fuel s1 o c start
    else
      match sno_lit s c with
      | (false, s1) => sno_rollback s1 start
      | (true, s1) => (true, { s1 with view_begin := start })
end

/-- `sno_bal`: match one balanced delimiter expression.  The fuel
`2 * length + 2` dominates the recursion depth of every execution of the C
code on the bound subject. -/
def sno_bal (s : sno_subject_t) (o c : Char) : Bool × sno_subject_t :=
  sno_balF (2 * s.text.length + 2) s o c

/-- One primitive call with its arguments, used to quantify over all
primitives and to define reachability. -/
inductive SnoOp where
  | lit (ch : Char)
  | len (n : Nat)
  | span (set : List Char)
  | sbreak (set : List Char)
  | any (set : List Char)
  | notany (set : List Char)
  | tab (n : Nat)
  | rtab (n : Nat)
  | rem
  | var (buflen : Nat)
  | cap (buflen : Nat)
  | len_var (n buflen : Nat)
  | mark
  | bal (o c : Char)
deriving DecidableEq

/-- Apply one primitive to a bound subject, returning its `bool` result and
the post-call state.  `sno_var`/`sno_cap` only write to the caller's buffer,
so the state is returned unchanged. -/
def applyOp : SnoOp → sno_subject_t → Bool × sno_subject_t
  | .lit ch, s => sno_lit s ch
  | .len n, s => sno_len s n
  | .span set, s => sno_span s set
  | .sbreak set, s => sno_break s set
  | .any set, s => sno_any s set
  | .notany set, s => sno_notany s set
  | .tab n, s => sno_tab s n
  | .rtab n, s => sno_rtab s n
  | .rem, s => sno_rem s
  | .var b, s => ((sno_var s b).1, s)
  | .cap b, s => ((sno_cap s b).1, s)
  | .len_var n b, s => sno_len_var s n b
  | .mark, s => sno_mark s
  | .bal o c, s => sno_bal s o c

/-- States reachable from `sno_bind` by any sequence of primitive calls. -/
inductive Reachable : sno_subject_t → Prop
  | bind (cs : List Char) : Reachable (sno_bind cs)
  | step {s : sno_subject_t} (op : SnoOp) : Reachable s → Reachable (applyOp op s).2

/-- Argument sanity for a primitive call: the literal of `sno_lit` and the
delimiters of `sno_bal` are actual characters, not the null terminator. -/
def opArgsOK : SnoOp → Prop
  | .lit ch => ch ≠ nullc
  | .bal o c => o ≠ nullc ∧ c ≠ nullc
  | _ => True

/-- States reachable from `sno_bind` by primitive calls whose character
arguments are never the null terminator. -/
inductive NFReachable : sno_subject_t → Prop
  | bind (cs : List Char) : NFReachable (sno_bind cs)
  | step {s : sno_subject_t} (op : SnoOp) :
      NFReachable s → opArgsOK op → NFReachable (applyOp op s).2

/-- Cursor well-formedness: the mark is at or before the cursor and the
cursor is inside the subject (at most at the terminator). -/
def WF (s : sno_subject_t) : Prop :=
  s.mark ≤ s.view_end ∧ s.view_end ≤ s.text.length

/-- `matchesAtL t p w`: the text `t`, read with C semantics from offset
`p`, begins with the word `w`. -/
def matchesAtL (t : List Char) : Nat → List Char → Bool
  | _, [] => true
  | p, ch :: rest => (charAtL t p == ch) && matchesAtL t (p + 1) rest

/-- The subject text begins with the word `w` at offset `p`. -/
def matchesAt (s : sno_subject_t) (p : Nat) (w : List Char) : Bool :=
  matchesAtL s.text p w

/-- The interior of a balanced `(o, c)`-expression: a sequence of
non-delimiter characters and complete nested balanced expressions.  A full
balanced expression headed by `o` and closed by the matching `c` is
`o :: b ++ [c]` with `BalBody o c b`. -/
inductive BalBody (o c : Char) : List Char → Prop
  | nil : BalBody o c []
  | chr (ch : Char) (rest : List Char) :
      ch ≠ o → ch ≠ c → ch ≠ nullc → BalBody o c rest → BalBody o c (ch :: rest)
  | nest (inner rest : List Char) :
      BalBody o c inner → BalBody o c rest → BalBody o c (o :: inner ++ [c] ++ rest)

lemma runLen_le (q : Char → Bool) : ∀ u : List Char, runLen q u ≤ u.length := by
  intro u
  induction u with
  | nil => simp [runLen]
  | cons ch rest ih =>
    by_cases h : q ch = true
    · simpa [runLen, h] using ih
    · simp [runLen, h]

lemma charAtL_nil (k : Nat) : charAtL [] k = nullc := by
  simp [charAtL]

lemma charAtL_cons_zero (ch : Char) (rest : List Char) : charAtL (ch :: rest) 0 = ch := by
  simp [charAtL]

lemma charAtL_cons_succ (ch : Char) (rest : List Char) (k : Nat) :
    charAtL (ch :: rest) (k + 1) = charAtL rest k := by
  unfold charAtL
  by_cases h : k < rest.length
  · rw [dif_pos (by simpa using Nat.succ_lt_succ h), dif_pos h]
    rfl
  · rw [dif_neg (by simpa using fun hh => h (Nat.lt_of_succ_lt_succ hh)), dif_neg h]

lemma runLen_mem (q : Char → Bool) : ∀ (u : List Char) (k : Nat), k < runLen q u →
    q (charAtL u k) = true := by
  intro u
  induction u with
  | nil => intro k hk; simp [runLen] at hk
  | cons ch rest ih =>
    intro k hk
    by_cases h : q ch = true
    · rw [runLen, if_pos h] at hk
      cases k with
      | zero => rw [charAtL_cons_zero]; exact h
      | succ k => rw [charAtL_cons_succ]; exact ih k (by omega)
    · rw [runLen, if_neg h] at hk
      omega

lemma runLen_end (q : Char → Bool) (hq : q nullc = false) :
    ∀ u : List Char, q (charAtL u (runLen q u)) = false := by
  intro u
  induction u with
  | nil => rw [charAtL_nil]; exact hq
  | cons ch rest ih =>
    by_cases h : q ch = true
    · rw [runLen, if_pos h, charAtL_cons_succ]; exact ih
    · rw [runLen, if_neg h, charAtL_cons_zero]
      exact Bool.eq_false_iff.mpr h

lemma charAtL_drop (t : List Char) (i k : Nat) :
    charAtL (t.drop i) k = charAtL t (i + k) := by
  unfold charAtL
  by_cases h : i + k < t.length
  · have h2 : k < (t.drop i).length := by rw [List.length_drop]; omega
    rw [dif_pos h2, dif_pos h]
    simp [List.get_eq_getElem, List.getElem_drop]
  · have h2 : ¬ k < (t.drop i).length := by rw [List.length_drop]; omega
    rw [dif_neg h2, dif_neg h]

/-- What the scanning loop guarantees: the stop offset is at or after the
start, stays inside the text if the start is, every scanned character
satisfies `q`, and the character at the stop offset does not. -/
lemma runEnd_spec (t : List Char) (q : Char → Bool) (hq : q nullc = false) (i : Nat) :
    i ≤ runEnd t q i ∧
    (i ≤ t.length → runEnd t q i ≤ t.length) ∧
    (∀ j, i ≤ j → j < runEnd t q i → q (charAtL t j) = true) ∧
    q (charAtL t (runEnd t q i)) = false := by
  have hle := runLen_le q (t.drop i)
  rw [List.length_drop] at hle
  refine ⟨Nat.le_add_right i _, fun h => by unfold runEnd; omega, ?_, ?_⟩
  · intro j h1 h2
    have hk : j - i < runLen q (t.drop i) := by unfold runEnd at h2; omega
    have := runLen_mem q (t.drop i) (j - i) hk
    rw [charAtL_drop] at this
    rwa [Nat.add_sub_cancel' h1] at this
  · have := runLen_end q hq (t.drop i)
    rwa [charAtL_drop] at this

/-- Failure of `sno_len` leaves the state untouched. -/
lemma sno_len_fail (s : sno_subject_t) (n : Nat) (h : (sno_len s n).1 = false) :
    (sno_len s n).2 = s := by
  by_cases hg : s.view_end + n ≥ s.text.length + 1
  · simp [sno_len, hg]
  · simp [sno_len, hg] at h

/-- On success `sno_len` consumes exactly `n` characters from the cursor. -/
lemma sno_len_succ (s : sno_subject_t) (n : Nat) (h : ¬ s.view_end + n ≥ s.text.length + 1) :
    sno_len s n = (true, { s with view_begin := s.view_end, view_end := s.view_end + n }) := by
  simp [sno_len, h]

/-- Rolling `sno_len_var` back after a failed extraction restores the exact
pre-call state. -/
lemma sno_len_var_fail_eq (s : sno_subject_t) (n buflen : Nat)
    (h : (sno_len_var s n buflen).1 = false) :
    (sno_len_var s n buflen).2 = s := by
  obtain ⟨t, vb, ve, m⟩ := s
  by_cases hg : ve + n ≥ t.length + 1
  · have hl : sno_len ⟨t, vb, ve, m⟩ n = (false, ⟨t, vb, ve, m⟩) := by
      simp [sno_len, hg]
    simp [sno_len_var, hl]
  · have hl : sno_len ⟨t, vb, ve, m⟩ n = (true, ⟨t, ve, ve + n, m⟩) := by
      have := sno_len_succ ⟨t, vb, ve, m⟩ n hg
      simpa using this
    by_cases hv : (sno_var ⟨t, ve, ve + n, m⟩ buflen).1 = true
    · simp [sno_len_var, hl, hv] at h
    · simp [sno_len_var, hl, hv]

/-- C4 — atomicity of the compound extraction `sno_len_var`: whenever it
returns `false` (including the case where `sno_len` succeeded but the
destination buffer was too small for the `n` characters plus terminator)
the whole state, in particular both view fields, equals its pre-call
value. -/
theorem sno_len_var_atomic (s : sno_subject_t) (n buflen : Nat)
    (h : (sno_len_var s n buflen).1 = false) :
    (sno_len_var s n buflen).2 = s :=
  sno_len_var_fail_eq s n buflen h

/-- Witness for `sno_len_var_atomic` at a concrete input on which
`sno_len` alone succeeds but the buffer (capacity 1) is too small: the
state is unchanged. -/
theorem sno_len_var_atomic_witness :
    (sno_len (sno_bind "abcd".toList) 2).1 = true ∧
    (sno_len_var (sno_bind "abcd".toList) 2 1).1 = false ∧
    (sno_len_var (sno_bind "abcd".toList) 2 1).2 = sno_bind "abcd".toList :=
  ⟨by decide, by decide, sno_len_var_atomic (sno_bind "abcd".toList) 2 1 (by decide)⟩

/-- On a `runEnd` result the two primitives are plain case splits. -/
lemma sno_span_eq (s : sno_subject_t) (set : List Char) :
    sno_span s set =
      if runEnd s.text (fun ch => ch != nullc && set.contains ch) s.view_end = s.view_end
      then (false, s)
      else (true, { s with view_begin := s.view_end,
                           view_end := runEnd s.text
                            (fun ch => ch != nullc && set.contains ch) s.view_end }) :=
  rfl

lemma sno_break_eq (s : sno_subject_t) (set : List Char) :
    sno_break s set =
      (true, { s with view_begin := s.view_end,
                      view_end := runEnd s.text
                        (fun ch => ch != nullc && !set.contains ch) s.view_end }) :=
  rfl

/-- C5 — span/break bound rule: `sno_span` never succeeds with an empty
view (its span starts at the cursor, is nonempty, consists of set members,
and is maximal); on failure the state is unchanged and the character at the
cursor is the terminator or not in the set.  `sno_break` always returns
`true`, consuming the maximal (possibly empty) run of non-members. -/
theorem sno_span_break_content (s : sno_subject_t) (set : List Char) :
    ((sno_span s set).1 = true →
       s.view_end < (sno_span s set).2.view_end ∧
       (sno_span s set).2.view_begin = s.view_end ∧
       (∀ j, s.view_end ≤ j → j < (sno_span s set).2.view_end →
          charAt s j ≠ nullc ∧ set.contains (charAt s j) = true) ∧
       ¬ (charAt s ((sno_span s set).2.view_end) ≠ nullc ∧
           set.contains (charAt s ((sno_span s set).2.view_end)) = true)) ∧
    ((sno_span s set).1 = false →
       (sno_span s set).2 = s ∧
       ¬ (charAt s s.view_end ≠ nullc ∧ set.contains (charAt s s.view_end) = true)) ∧
    ((sno_break s set).1 = true ∧
       (sno_break s set).2.view_begin = s.view_end ∧
       s.view_end ≤ (sno_break s set).2.view_end ∧
       (∀ j, s.view_end ≤ j → j < (sno_break s set).2.view_end →
          charAt s j ≠ nullc ∧ set.contains (charAt s j) = false) ∧
       ¬ (charAt s ((sno_break s set).2.view_end) ≠ nullc ∧
           set.contains (charAt s ((sno_break s set).2.view_end)) = false)) := by
  have hq1 : (fun ch => ch != nullc && set.contains ch) nullc = false := by simp
  have hq2 : (fun ch => ch != nullc && !set.contains ch) nullc = false := by simp
  have hs := runEnd_spec s.text (fun ch => ch != nullc && set.contains ch) hq1 s.view_end
  have hb := runEnd_spec s.text (fun ch => ch != nullc && !set.contains ch) hq2 s.view_end
  simp only [charAt]
  refine ⟨?_, ?_, ?_⟩
  · intro h
    by_cases hz : runEnd s.text (fun ch => ch != nullc && set.contains ch) s.view_end = s.view_end
    · rw [sno_span_eq, if_pos hz] at h
      exact absurd h (by simp)
    · rw [sno_span_eq, if_neg hz]
      refine ⟨Nat.lt_of_le_of_ne hs.1 fun hh => hz hh.symm, rfl, ?_, ?_⟩
      · intro j h1 h2
        have h3 := hs.2.2.1 j h1 h2
        simp only [Bool.and_eq_true] at h3
        exact ⟨bne_iff_ne.mp h3.1, h3.2⟩
      · rintro ⟨hne, hc⟩
        have h3 := hs.2.2.2
        have ha : (charAtL s.text
            (runEnd s.text (fun ch => ch != nullc && set.contains ch) s.view_end) != nullc) = true :=
          bne_iff_ne.mpr hne
        rw [ha, hc] at h3
        simp at h3
  · intro h
    by_cases hz : runEnd s.text (fun ch => ch != nullc && set.contains ch) s.view_end = s.view_end
    · rw [sno_span_eq, if_pos hz]
      refine ⟨rfl, ?_⟩
      rintro ⟨hne, hc⟩
      have h3 := hs.2.2.2
      rw [hz] at h3
      have ha : (charAtL s.text s.view_end != nullc) = true := bne_iff_ne.mpr hne
      rw [ha, hc] at h3
      simp at h3
    · rw [sno_span_eq, if_neg hz] at h
      exact absurd h (by simp)
  · rw [sno_break_eq]
    refine ⟨rfl, rfl, hb.1, ?_, ?_⟩
    · intro j h1 h2
      have h3 := hb.2.2.1 j h1 h2
      simp only [Bool.and_eq_true] at h3
      refine ⟨bne_iff_ne.mp h3.1, ?_⟩
      have hc := h3.2
      revert hc
      cases set.contains (charAtL s.text j) <;> simp
    · rintro ⟨hne, hc⟩
      have h3 := hb.2.2.2
      have ha : (charAtL s.text
          (runEnd s.text (fun ch => ch != nullc && !set.contains ch) s.view_end) != nullc) = true :=
        bne_iff_ne.mpr hne
      rw [ha, hc] at h3
      simp at h3

/-- Witness for `sno_span_break_content` on subject `"aab"`: `sno_span`
with set `{a}` succeeds with a nonempty view, and `sno_break` with set
`{b}` succeeds. -/
theorem sno_span_break_content_witness :
    (sno_span (sno_bind "aab".toList) ['a']).1 = true ∧
    0 < (sno_span (sno_bind "aab".toList) ['a']).2.view_end ∧
    (sno_break (sno_bind "aab".toList) ['b']).1 = true := by
  refine ⟨by decide, ?_, (sno_span_break_content (sno_bind "aab".toList) ['b']).2.2.1⟩
  exact ((sno_span_break_content (sno_bind "aab".toList) ['a']).1 (by decide)).1

/-- C6 — the claim (and the header comment `@note Fails if n == 0` of
`sno_len`) say `sno_len(s, 0)` must fail, but the code computes
`pos = view.end + 0 < str.end` and succeeds with an empty view: evaluated
on the bound subject `"ab"`, `sno_len(s, 0)` returns `true` with the cursor
still at 0. -/
theorem sno_len_zero_succeeds :
    (sno_len (sno_bind "ab".toList) 0).1 = true ∧
    (sno_len (sno_bind "ab".toList) 0).2.view_end = 0 ∧
    (sno_len (sno_bind "ab".toList) 0).2.view_begin = 0 := by decide

/-- C7 — tab monotonicity: `sno_tab s n` fails with the state unchanged
whenever `n` is left of the cursor, and for `cur ≤ n ≤ length` it succeeds
with consumed span `[cur, n)` — empty when `n` equals the cursor. -/
theorem sno_tab_monotone (s : sno_subject_t) (n : Nat) :
    (n < s.view_end → sno_tab s n = (false, s)) ∧
    (s.view_end ≤ n → n ≤ s.text.length →
       sno_tab s n = (true, { s with view_begin := s.view_end, view_end := n })) := by
  constructor
  · intro h
    simp only [sno_tab]
    rw [if_pos (Or.inl h)]
  · intro h1 h2
    simp only [sno_tab]
    rw [if_neg]
    omega

/-- Witness for `sno_tab_monotone` with the cursor at offset 2 of
`"abcd"`: `sno_tab 1` fails unchanged, `sno_tab 2` succeeds with the empty
span `[2, 2)`. -/
theorem sno_tab_monotone_witness :
    sno_tab ((sno_len (sno_bind "abcd".toList) 2).2) 1 =
      (false, (sno_len (sno_bind "abcd".toList) 2).2) ∧
    sno_tab ((sno_len (sno_bind "abcd".toList) 2).2) 2 =
      (true, { (sno_len (sno_bind "abcd".toList) 2).2 with view_begin := 2, view_end := 2 }) := by
  constructor
  · exact (sno_tab_monotone ((sno_len (sno_bind "abcd".toList) 2).2) 1).1 (by decide)
  · exact (sno_tab_monotone ((sno_len (sno_bind "abcd".toList) 2).2) 2).2 (by decide) (by decide)

/-- Counterexample to C8 as stated: the state reached by binding `""` and
calling `sno_lit` with the null terminator (defined C behavior — the
terminator compares equal, so the cursor lands at offset 1, one past
`length = 0`) is reachable after `sno_bind`, yet there `sno_rtab(s, 0)`
returns `false` (its target `length - 0 = 0` is left of the cursor) while
`sno_rem(s)` returns `true` — the two calls are not equivalent on every
reachable state. -/
theorem sno_rtab_zero_ne_rem_reachable :
    Reachable ((applyOp (SnoOp.lit nullc) (sno_bind ([] : List Char))).2) ∧
    (sno_rtab ((applyOp (SnoOp.lit nullc) (sno_bind ([] : List Char))).2) 0).1 = false ∧
    (sno_rem ((applyOp (SnoOp.lit nullc) (sno_bind ([] : List Char))).2)).1 = true ∧
    sno_rtab ((applyOp (SnoOp.lit nullc) (sno_bind ([] : List Char))).2) 0 ≠
      sno_rem ((applyOp (SnoOp.lit nullc) (sno_bind ([] : List Char))).2) :=
  ⟨Reachable.step (SnoOp.lit nullc) (Reachable.bind _), by decide, by decide, by decide⟩

/-- C8 (amended) — `sno_rtab(s, 0)` and `sno_rem(s)` are equivalent on
every state whose cursor is inside the bound subject (`view.end ≤ length`,
which holds for every state reached without passing the null terminator as
a character argument): both succeed and produce the identical state, with
the view spanning from the old cursor to end-of-text. -/
theorem sno_rtab_zero_eq_rem (s : sno_subject_t) (h : s.view_end ≤ s.text.length) :
    sno_rtab s 0 = sno_rem s ∧
    (sno_rtab s 0).1 = true ∧
    (sno_rtab s 0).2.view_begin = s.view_end ∧
    (sno_rtab s 0).2.view_end = s.text.length := by
  have e : sno_rtab s 0 = (true, { s with view_begin := s.view_end, view_end := s.text.length }) := by
    simp only [sno_rtab, Nat.sub_zero]
    rw [if_neg (by omega), if_neg (by omega)]
  have e2 : sno_rem s = (true, { s with view_begin := s.view_end, view_end := s.text.length }) := rfl
  exact ⟨e.trans e2.symm, by rw [e], by rw [e], by rw [e]⟩

/-- Witness for `sno_rtab_zero_eq_rem` with the cursor at offset 1 of
`"ab"`. -/
theorem sno_rtab_zero_eq_rem_witness :
    sno_rtab ((sno_len (sno_bind "ab".toList) 1).2) 0 =
      sno_rem ((sno_len (sno_bind "ab".toList) 1).2) ∧
    (sno_rtab ((sno_len (sno_bind "ab".toList) 1).2) 0).1 = true :=
  ⟨(sno_rtab_zero_eq_rem ((sno_len (sno_bind "ab".toList) 1).2) (by decide)).1,
   (sno_rtab_zero_eq_rem ((sno_len (sno_bind "ab".toList) 1).2) (by decide)).2.1⟩

/-- C9 — `sno_reset` fails exactly when no subject context is present
(the NULL context, modelled as `none`); on a bound context it succeeds,
returning the view to the empty span at the subject start and the mark to
the subject start, leaving the bound text (and its length) untouched. -/
theorem sno_reset_spec :
    (∀ os : Option sno_subject_t, ((sno_reset os).1 = false ↔ os = none)) ∧
    (∀ s : sno_subject_t, sno_reset (some s) =
       (true, some { s with view_begin := 0, view_end := 0, mark := 0 })) := by
  constructor
  · intro os; cases os <;> simp [sno_reset]
  · intro s; rfl


lemma charAt_ne_null_lt (s : sno_subject_t) (i : Nat) (h : charAt s i ≠ nullc) :
    i < s.text.length := by
  by_contra hlt
  apply h
  unfold charAt charAtL
  rw [dif_neg hlt]

/-- All facts about `sno_balF`/`sno_balLoopF` needed for the cursor
contracts, proved simultaneously by induction on the fuel: the text and the
mark are never modified; on failure the balanced matcher restores the
cursor (`view.end`) to its pre-call value and the loop rolls both view
fields back to `start`; on success the cursor strictly advances and, when
the closing delimiter is a real character, stays inside the text. -/
lemma balF_facts : ∀ fuel : Nat,
    (∀ (s : sno_subject_t) (o c : Char),
      (sno_balF fuel s o c).2.text = s.text ∧
      (sno_balF fuel s o c).2.mark = s.mark ∧
      ((sno_balF fuel s o c).1 = false →
        (sno_balF fuel s o c).2.view_end = s.view_end ∧
        ((sno_balF fuel s o c).2.view_begin = s.view_begin ∨
          (sno_balF fuel s o c).2.view_begin = s.view_end)) ∧
      ((sno_balF fuel s o c).1 = true →
        s.view_end < (sno_balF fuel s o c).2.view_end ∧
        (c ≠ nullc → (sno_balF fuel s o c).2.view_end ≤ s.text.length))) ∧
    (∀ (s : sno_subject_t) (o c : Char) (start : Nat),
      (sno_balLoopF fuel s o c start).2.text = s.text ∧
      (sno_balLoopF fuel s o c start).2.mark = s.mark ∧
      ((sno_balLoopF fuel s o c start).1 = false →
        (sno_balLoopF fuel s o c start).2.view_begin = start ∧
        (sno_balLoopF fuel s o c start).2.view_end = start) ∧
      ((sno_balLoopF fuel s o c start).1 = true →
        (sno_balLoopF fuel s o c start).2.view_begin = start ∧
        s.view_end < (sno_balLoopF fuel s o c start).2.view_end ∧
        (c ≠ nullc → (sno_balLoopF fuel s o c start).2.view_end ≤ s.text.length))) := by
  intro fuel
  induction fuel with
  | zero =>
    constructor
    · intro s o c
      refine ⟨rfl, rfl, fun _ => ⟨rfl, Or.inl rfl⟩, fun h => absurd h (by simp [sno_balF])⟩
    · intro s o c start
      exact ⟨rfl, rfl, fun _ => ⟨rfl, rfl⟩,
        fun h => absurd h (by simp [sno_balLoopF, sno_rollback])⟩
  | succ n ih =>
    obtain ⟨ihF, ihL⟩ := ih
    constructor
    · intro s o c
      by_cases hlit : charAt s s.view_end = o
      · have e : sno_lit s o =
            (true, { s with view_begin := s.view_end, view_end := s.view_end + 1 }) := by
          simp only [sno_lit]
          rw [if_neg (fun hh => hh hlit)]
        have eF : sno_balF (n + 1) s o c =
            sno_balLoopF n { s with view_begin := s.view_end, view_end := s.view_end + 1 } o c
              s.view_end := by
          simp only [sno_balF, e]
        rw [eF]
        have hl := ihL { s with view_begin := s.view_end, view_end := s.view_end + 1 } o c
          s.view_end
        refine ⟨hl.1, hl.2.1, ?_, ?_⟩
        · intro h
          obtain ⟨h1, h2⟩ := hl.2.2.1 h
          exact ⟨h2, Or.inr h1⟩
        · intro h
          obtain ⟨h1, h2, h3⟩ := hl.2.2.2 h
          exact ⟨lt_trans (Nat.lt_succ_self s.view_end) h2, h3⟩
      · have e : sno_lit s o = (false, s) := by
          simp only [sno_lit]
          rw [if_pos hlit]
        have eF : sno_balF (n + 1) s o c = (false, s) := by
          simp only [sno_balF, e]
        rw [eF]
        exact ⟨rfl, rfl, fun _ => ⟨rfl, Or.inl rfl⟩, fun h => by simp at h⟩
    · intro s o c start
      by_cases hcond : charAt s s.view_end ≠ nullc ∧ charAt s s.view_end ≠ c
      · by_cases hcho : charAt s s.view_end = o
        · have eF : sno_balLoopF (n + 1) s o c start =
              (match sno_balF n s o c with
               | (false, s1) => sno_rollback s1 start
               | (true, s1) => sno_balLoopF n s1 o c start) := by
            simp only [sno_balLoopF]
            rw [if_pos hcond, if_pos hcho]
          have hF := ihF s o c
          rcases hb : sno_balF n s o c with ⟨bb, s1⟩
          rw [hb] at hF eF
          cases bb with
          | false =>
            rw [eF]
            have hFtext : s1.text = s.text := hF.1
            have hFmark : s1.mark = s.mark := hF.2.1
            exact ⟨hFtext, hFmark, fun _ => ⟨rfl, rfl⟩,
              fun h => by simp [sno_rollback] at h⟩
          | true =>
            rw [eF]
            have hFtext : s1.text = s.text := hF.1
            have hFmark : s1.mark = s.mark := hF.2.1
            have hFsucc : s.view_end < s1.view_end ∧
                (c ≠ nullc → s1.view_end ≤ s.text.length) := hF.2.2.2 rfl
            have hl := ihL s1 o c start
            refine ⟨hl.1.trans hFtext, hl.2.1.trans hFmark, hl.2.2.1, ?_⟩
            intro h
            obtain ⟨h1, h2, h3⟩ := hl.2.2.2 h
            obtain ⟨hm1, _⟩ := hFsucc
            refine ⟨h1, ?_, fun hcn => ?_⟩
            · show s.view_end < (sno_balLoopF n s1 o c start).2.view_end
              omega
            have h4 := h3 hcn
            rw [hFtext] at h4
            exact h4
        · have hna : sno_notany s [o, c] =
              (true, { s with view_begin := s.view_end, view_end := s.view_end + 1 }) := by
            simp only [sno_notany]
            rw [if_neg]
            rintro (h | h)
            · exact hcond.1 h
            · rcases (by simpa using h : charAt s s.view_end = o ∨ charAt s s.view_end = c)
                with h2 | h2
              · exact hcho h2
              · exact hcond.2 h2
          have eF : sno_balLoopF (n + 1) s o c start =
              sno_balLoopF n { s with view_begin := s.view_end, view_end := s.view_end + 1 } o c
                start := by
            simp only [sno_balLoopF]
            rw [if_pos hcond, if_neg hcho, hna]
          rw [eF]
          have hl := ihL { s with view_begin := s.view_end, view_end := s.view_end + 1 } o c start
          refine ⟨hl.1, hl.2.1, hl.2.2.1, ?_⟩
          intro h
          obtain ⟨h1, h2, h3⟩ := hl.2.2.2 h
          exact ⟨h1, lt_trans (Nat.lt_succ_self s.view_end) h2, h3⟩
      · by_cases hlc : charAt s s.view_end = c
        · have e : sno_lit s c =
              (true, { s with view_begin := s.view_end, view_end := s.view_end + 1 }) := by
            simp only [sno_lit]
            rw [if_neg (fun hh => hh hlc)]
          have eF : sno_balLoopF (n + 1) s o c start =
              (true, { s with view_begin := start, view_end := s.view_end + 1 }) := by
            simp only [sno_balLoopF]
            rw [if_neg hcond, e]
          rw [eF]
          refine ⟨rfl, rfl, fun h => by simp at h, fun _ => ⟨rfl, ?_, fun hcn => ?_⟩⟩
          · show s.view_end < s.view_end + 1
            omega
          · show s.view_end + 1 ≤ s.text.length
            have := charAt_ne_null_lt s s.view_end (by rw [hlc]; exact hcn)
            omega
        · have e : sno_lit s c = (false, s) := by
            simp only [sno_lit]
            rw [if_pos hlc]
          have eF : sno_balLoopF (n + 1) s o c start = sno_rollback s start := by
            simp only [sno_balLoopF]
            rw [if_neg hcond, e]
          rw [eF]
          exact ⟨rfl, rfl, fun _ => ⟨rfl, rfl⟩, fun h => by simp [sno_rollback] at h⟩

/-- Success shape of the compound `sno_len_var`. -/
lemma sno_len_var_succ (s : sno_subject_t) (n buflen : Nat)
    (h : (sno_len_var s n buflen).1 = true) :
    (sno_len_var s n buflen).2 =
      { s with view_begin := s.view_end, view_end := s.view_end + n } ∧
    s.view_end + n ≤ s.text.length := by
  by_cases hg : s.view_end + n ≥ s.text.length + 1
  · have hl : sno_len s n = (false, s) := by simp [sno_len, hg]
    simp [sno_len_var, hl] at h
  · have hl := sno_len_succ s n hg
    by_cases hv :
        (sno_var { s with view_begin := s.view_end, view_end := s.view_end + n } buflen).1 = true
    · have e : sno_len_var s n buflen =
          (true, { s with view_begin := s.view_end, view_end := s.view_end + n }) := by
        simp only [sno_len_var, hl]
        rw [if_pos hv]
      rw [e]
      exact ⟨rfl, by omega⟩
    · have e : (sno_len_var s n buflen).1 = false := by
        simp only [sno_len_var, hl]
        rw [if_neg hv]
      rw [e] at h
      cases h

/-- One combined fact sheet per primitive call: the text is never modified;
on failure the cursor (`view.end`) and the mark keep their pre-call values
and `view.begin` is also unchanged except for `sno_bal`, which may move it
to the pre-call cursor; and from a well-formed state with sane character
arguments the cursor only moves rightward and the state stays
well-formed. -/
lemma applyOp_facts (op : SnoOp) (s : sno_subject_t) :
    (applyOp op s).2.text = s.text ∧
    ((applyOp op s).1 = false →
      (applyOp op s).2.view_end = s.view_end ∧
      (applyOp op s).2.mark = s.mark ∧
      ((applyOp op s).2.view_begin = s.view_begin ∨
        ((∃ o c, op = SnoOp.bal o c) ∧ (applyOp op s).2.view_begin = s.view_end))) ∧
    (opArgsOK op → WF s →
      s.view_end ≤ (applyOp op s).2.view_end ∧ WF (applyOp op s).2) := by
  cases op with
  | lit ch =>
    simp only [applyOp, sno_lit]
    split
    · exact ⟨rfl, fun _ => ⟨rfl, rfl, Or.inl rfl⟩, fun _ hwf => ⟨le_rfl, hwf⟩⟩
    · next hcnd =>
      push_neg at hcnd
      refine ⟨rfl, fun h => by simp at h, fun hok hwf => ?_⟩
      have hlt := charAt_ne_null_lt s s.view_end (by rw [hcnd]; exact hok)
      obtain ⟨hw1, hw2⟩ := hwf
      refine ⟨?_, ?_⟩
      · show s.view_end ≤ s.view_end + 1
        omega
      · show s.mark ≤ s.view_end + 1 ∧ s.view_end + 1 ≤ s.text.length
        exact ⟨by omega, by omega⟩
  | len n =>
    simp only [applyOp]
    by_cases hg : s.view_end + n ≥ s.text.length + 1
    · have e : sno_len s n = (false, s) := by simp [sno_len, hg]
      rw [e]
      exact ⟨rfl, fun _ => ⟨rfl, rfl, Or.inl rfl⟩, fun _ hwf => ⟨le_rfl, hwf⟩⟩
    · rw [sno_len_succ s n hg]
      refine ⟨rfl, fun h => by simp at h, fun _ hwf => ?_⟩
      obtain ⟨hw1, hw2⟩ := hwf
      refine ⟨?_, ?_⟩
      · show s.view_end ≤ s.view_end + n
        omega
      · show s.mark ≤ s.view_end + n ∧ s.view_end + n ≤ s.text.length
        exact ⟨by omega, by omega⟩
  | span set =>
    simp only [applyOp]
    have hq1 : (fun ch => ch != nullc && set.contains ch) nullc = false := by simp
    have hs := runEnd_spec s.text (fun ch => ch != nullc && set.contains ch) hq1 s.view_end
    by_cases hz : runEnd s.text (fun ch => ch != nullc && set.contains ch) s.view_end = s.view_end
    · rw [sno_span_eq, if_pos hz]
      exact ⟨rfl, fun _ => ⟨rfl, rfl, Or.inl rfl⟩, fun _ hwf => ⟨le_rfl, hwf⟩⟩
    · rw [sno_span_eq, if_neg hz]
      refine ⟨rfl, fun h => by simp at h, fun _ hwf => ?_⟩
      obtain ⟨hw1, hw2⟩ := hwf
      exact ⟨hs.1, le_trans hw1 hs.1, hs.2.1 hw2⟩
  | sbreak set =>
    simp only [applyOp]
    have hq2 : (fun ch => ch != nullc && !set.contains ch) nullc = false := by simp
    have hb := runEnd_spec s.text (fun ch => ch != nullc && !set.contains ch) hq2 s.view_end
    rw [sno_break_eq]
    refine ⟨rfl, fun h => by simp at h, fun _ hwf => ?_⟩
    obtain ⟨hw1, hw2⟩ := hwf
    exact ⟨hb.1, le_trans hw1 hb.1, hb.2.1 hw2⟩
  | any set =>
    simp only [applyOp, sno_any]
    split
    · exact ⟨rfl, fun _ => ⟨rfl, rfl, Or.inl rfl⟩, fun _ hwf => ⟨le_rfl, hwf⟩⟩
    · next hcnd =>
      push_neg at hcnd
      refine ⟨rfl, fun h => by simp at h, fun _ hwf => ?_⟩
      have hlt := charAt_ne_null_lt s s.view_end hcnd.1
      obtain ⟨hw1, hw2⟩ := hwf
      refine ⟨?_, ?_⟩
      · show s.view_end ≤ s.view_end + 1
        omega
      · show s.mark ≤ s.view_end + 1 ∧ s.view_end + 1 ≤ s.text.length
        exact ⟨by omega, by omega⟩
  | notany set =>
    simp only [applyOp, sno_notany]
    split
    · exact ⟨rfl, fun _ => ⟨rfl, rfl, Or.inl rfl⟩, fun _ hwf => ⟨le_rfl, hwf⟩⟩
    · next hcnd =>
      push_neg at hcnd
      refine ⟨rfl, fun h => by simp at h, fun _ hwf => ?_⟩
      have hlt := charAt_ne_null_lt s s.view_end hcnd.1
      obtain ⟨hw1, hw2⟩ := hwf
      refine ⟨?_, ?_⟩
      · show s.view_end ≤ s.view_end + 1
        omega
      · show s.mark ≤ s.view_end + 1 ∧ s.view_end + 1 ≤ s.text.length
        exact ⟨by omega, by omega⟩
  | tab n =>
    simp only [applyOp, sno_tab]
    split
    · exact ⟨rfl, fun _ => ⟨rfl, rfl, Or.inl rfl⟩, fun _ hwf => ⟨le_rfl, hwf⟩⟩
    · next hcnd =>
      push_neg at hcnd
      obtain ⟨hc1, hc2⟩ := hcnd
      refine ⟨rfl, fun h => by simp at h, fun _ hwf => ?_⟩
      obtain ⟨hw1, hw2⟩ := hwf
      refine ⟨hc1, ?_⟩
      show s.mark ≤ n ∧ n ≤ s.text.length
      exact ⟨by omega, hc2⟩
  | rtab n =>
    simp only [applyOp, sno_rtab]
    split
    · exact ⟨rfl, fun _ => ⟨rfl, rfl, Or.inl rfl⟩, fun _ hwf => ⟨le_rfl, hwf⟩⟩
    · next hg =>
      split
      · exact ⟨rfl, fun _ => ⟨rfl, rfl, Or.inl rfl⟩, fun _ hwf => ⟨le_rfl, hwf⟩⟩
      · next ht =>
        push_neg at hg ht
        refine ⟨rfl, fun h => by simp at h, fun _ hwf => ?_⟩
        obtain ⟨hw1, hw2⟩ := hwf
        refine ⟨ht, ?_⟩
        show s.mark ≤ s.text.length - n ∧ s.text.length - n ≤ s.text.length
        exact ⟨by omega, by omega⟩
  | rem =>
    refine ⟨rfl, fun h => absurd h (by simp [applyOp, sno_rem]), fun _ hwf => ?_⟩
    obtain ⟨hw1, hw2⟩ := hwf
    refine ⟨?_, ?_⟩
    · show s.view_end ≤ s.text.length
      exact hw2
    · show s.mark ≤ s.text.length ∧ s.text.length ≤ s.text.length
      exact ⟨by omega, le_rfl⟩
  | var b =>
    exact ⟨rfl, fun _ => ⟨rfl, rfl, Or.inl rfl⟩, fun _ hwf => ⟨le_rfl, hwf⟩⟩
  | cap b =>
    exact ⟨rfl, fun _ => ⟨rfl, rfl, Or.inl rfl⟩, fun _ hwf => ⟨le_rfl, hwf⟩⟩
  | len_var n b =>
    simp only [applyOp]
    refine ⟨?_, fun h => ?_, fun _ hwf => ?_⟩
    · by_cases hr : (sno_len_var s n b).1 = true
      · rw [(sno_len_var_succ s n b hr).1]
      · rw [sno_len_var_fail_eq s n b (by simpa using hr)]
    · rw [sno_len_var_fail_eq s n b h]
      exact ⟨rfl, rfl, Or.inl rfl⟩
    · obtain ⟨hw1, hw2⟩ := hwf
      by_cases hr : (sno_len_var s n b).1 = true
      · obtain ⟨e, hle⟩ := sno_len_var_succ s n b hr
        rw [e]
        refine ⟨?_, ?_⟩
        · show s.view_end ≤ s.view_end + n
          omega
        · show s.mark ≤ s.view_end + n ∧ s.view_end + n ≤ s.text.length
          exact ⟨by omega, hle⟩
      · rw [sno_len_var_fail_eq s n b (by simpa using hr)]
        exact ⟨le_rfl, hw1, hw2⟩
  | mark =>
    refine ⟨rfl, fun h => absurd h (by simp [applyOp, sno_mark]), fun _ hwf => ?_⟩
    obtain ⟨hw1, hw2⟩ := hwf
    refine ⟨le_rfl, ?_⟩
    show s.view_end ≤ s.view_end ∧ s.view_end ≤ s.text.length
    exact ⟨le_rfl, hw2⟩
  | bal o c =>
    simp only [applyOp, sno_bal]
    have hF := (balF_facts (2 * s.text.length + 2)).1 s o c
    refine ⟨hF.1, fun h => ?_, fun hok hwf => ?_⟩
    · obtain ⟨h1, h2⟩ := hF.2.2.1 h
      refine ⟨h1, hF.2.1, ?_⟩
      rcases h2 with h2 | h2
      · exact Or.inl h2
      · exact Or.inr ⟨⟨o, c, rfl⟩, h2⟩
    · obtain ⟨hw1, hw2⟩ := hwf
      cases hres : (sno_balF (2 * s.text.length + 2) s o c).1 with
      | false =>
        obtain ⟨h1, h2⟩ := hF.2.2.1 hres
        constructor
        · rw [h1]
        · show (sno_balF (2 * s.text.length + 2) s o c).2.mark ≤
              (sno_balF (2 * s.text.length + 2) s o c).2.view_end ∧
            (sno_balF (2 * s.text.length + 2) s o c).2.view_end ≤
              (sno_balF (2 * s.text.length + 2) s o c).2.text.length
          rw [hF.2.1, h1, hF.1]
          exact ⟨hw1, hw2⟩
      | true =>
        obtain ⟨h1, h2⟩ := hF.2.2.2 hres
        have hb2 := h2 hok.2
        constructor
        · exact le_of_lt h1
        · show (sno_balF (2 * s.text.length + 2) s o c).2.mark ≤
              (sno_balF (2 * s.text.length + 2) s o c).2.view_end ∧
            (sno_balF (2 * s.text.length + 2) s o c).2.view_end ≤
              (sno_balF (2 * s.text.length + 2) s o c).2.text.length
          rw [hF.2.1, hF.1]
          exact ⟨by omega, hb2⟩

/-- C1 (amended) — on failure of any primitive call, the cursor
(`view.end`) and the mark are unchanged, and `view.begin` is also
unchanged for every primitive except `sno_bal`, whose rollback may set
`view.begin` to the pre-call cursor position. -/
theorem sno_fail_preserves_cursor (op : SnoOp) (s : sno_subject_t)
    (h : (applyOp op s).1 = false) :
    (applyOp op s).2.view_end = s.view_end ∧
    (applyOp op s).2.mark = s.mark ∧
    ((applyOp op s).2.view_begin = s.view_begin ∨
      ((∃ o c, op = SnoOp.bal o c) ∧ (applyOp op s).2.view_begin = s.view_end)) :=
  (applyOp_facts op s).2.1 h

/-- Witness for `sno_fail_preserves_cursor`: a failing `sno_lit` on the
bound subject `"ab"` leaves cursor and mark at 0. -/
theorem sno_fail_preserves_cursor_witness :
    (applyOp (SnoOp.lit 'z') (sno_bind "ab".toList)).1 = false ∧
    (applyOp (SnoOp.lit 'z') (sno_bind "ab".toList)).2.view_end = 0 ∧
    (applyOp (SnoOp.lit 'z') (sno_bind "ab".toList)).2.mark = 0 :=
  ⟨by decide,
   (sno_fail_preserves_cursor (SnoOp.lit 'z') (sno_bind "ab".toList) (by decide)).1,
   (sno_fail_preserves_cursor (SnoOp.lit 'z') (sno_bind "ab".toList) (by decide)).2.1⟩

/-- Counterexample to C1 as stated: on the subject `"A(B"` with the literal
`A` already matched (so `view = [0, 1)`), the failing call
`sno_bal(s, '(', ')')` does not leave the whole View unchanged — it
restores `view.end` to 1 but overwrites `view.begin` (0 before the call)
with the pre-call cursor 1. -/
theorem sno_bal_fail_moves_view_begin :
    ((sno_lit (sno_bind "A(B".toList) 'A').2).view_begin = 0 ∧
    (sno_bal ((sno_lit (sno_bind "A(B".toList) 'A').2) '(' ')').1 = false ∧
    (sno_bal ((sno_lit (sno_bind "A(B".toList) 'A').2) '(' ')').2.view_begin = 1 := by
  exact ⟨by decide, by decide, by decide⟩

/-- C3 — whenever `sno_bal` returns `false` (missing opening delimiter,
failed nested recursion, or text exhausted before the matching close), the
cursor `view.end` after the call equals its pre-call value. -/
theorem sno_bal_fail_cursor_unchanged (s : sno_subject_t) (o c : Char)
    (h : (sno_bal s o c).1 = false) :
    (sno_bal s o c).2.view_end = s.view_end :=
  (((balF_facts (2 * s.text.length + 2)).1 s o c).2.2.1 h).1

/-- Witness for `sno_bal_fail_cursor_unchanged`: on the subject `"(B(C)D"`
(missing final close) `sno_bal` fails with the cursor still at 0. -/
theorem sno_bal_fail_cursor_unchanged_witness :
    (sno_bal (sno_bind "(B(C)D".toList) '(' ')').1 = false ∧
    (sno_bal (sno_bind "(B(C)D".toList) '(' ')').2.view_end = 0 :=
  ⟨by decide, sno_bal_fail_cursor_unchanged (sno_bind "(B(C)D".toList) '(' ')' (by decide)⟩

lemma WF_bind (cs : List Char) : WF (sno_bind cs) :=
  ⟨le_rfl, Nat.zero_le _⟩

/-- Every state reachable with non-null character arguments is
well-formed. -/
lemma NFReachable_WF {s : sno_subject_t} (h : NFReachable s) : WF s := by
  induction h with
  | bind cs => exact WF_bind cs
  | step op hr hok ih => exact ((applyOp_facts op _).2.2 hok ih).2

/-- C10 (amended) — from any state reachable from `sno_bind` by primitive
calls whose character arguments are not the null terminator, every further
such primitive call keeps the cursor monotone (`view.end` never decreases),
keeps it inside the bound subject, preserves `mark ≤ view.end`, and leaves
the text untouched. -/
theorem sno_cursor_monotone_nf (s : sno_subject_t) (hs : NFReachable s)
    (op : SnoOp) (hop : opArgsOK op) :
    s.view_end ≤ (applyOp op s).2.view_end ∧
    (applyOp op s).2.view_end ≤ s.text.length ∧
    (applyOp op s).2.mark ≤ (applyOp op s).2.view_end ∧
    (applyOp op s).2.text = s.text := by
  have hwf := NFReachable_WF hs
  have hf := (applyOp_facts op s).2.2 hop hwf
  have htext := (applyOp_facts op s).1
  obtain ⟨hmono, hwf2⟩ := hf
  obtain ⟨hm, hb⟩ := hwf2
  refine ⟨hmono, ?_, hm, htext⟩
  rwa [htext] at hb

/-- Witness for `sno_cursor_monotone_nf`: one `sno_len 1` step from the
freshly bound subject `"ab"`. -/
theorem sno_cursor_monotone_nf_witness :
    (sno_bind "ab".toList).view_end ≤
      (applyOp (SnoOp.len 1) (sno_bind "ab".toList)).2.view_end ∧
    (applyOp (SnoOp.len 1) (sno_bind "ab".toList)).2.view_end ≤
      (sno_bind "ab".toList).text.length ∧
    (applyOp (SnoOp.len 1) (sno_bind "ab".toList)).2.mark ≤
      (applyOp (SnoOp.len 1) (sno_bind "ab".toList)).2.view_end ∧
    (applyOp (SnoOp.len 1) (sno_bind "ab".toList)).2.text = (sno_bind "ab".toList).text :=
  sno_cursor_monotone_nf (sno_bind "ab".toList) (NFReachable.bind _) (SnoOp.len 1) trivial

/-- Counterexample to C10 as stated: the empty subject is reachable
(freshly bound), and the primitive `sno_lit` invoked with the null
terminator character succeeds there and pushes `view.end` to 1, one past
`length = 0` — the cursor escapes the claimed bound
`view.end ≤ subject start + length`. -/
theorem sno_lit_null_exceeds_length :
    Reachable (sno_bind ([] : List Char)) ∧
    (applyOp (SnoOp.lit nullc) (sno_bind ([] : List Char))).1 = true ∧
    (sno_bind ([] : List Char)).text.length <
      (applyOp (SnoOp.lit nullc) (sno_bind ([] : List Char))).2.view_end :=
  ⟨Reachable.bind _, by decide, by decide⟩

lemma charAtL_ne_null_lt (t : List Char) (i : Nat) (h : charAtL t i ≠ nullc) :
    i < t.length := by
  by_contra hlt
  apply h
  unfold charAtL
  rw [dif_neg hlt]

lemma matchesAtL_append (t : List Char) (u v : List Char) :
    ∀ p, matchesAtL t p (u ++ v) = (matchesAtL t p u && matchesAtL t (p + u.length) v) := by
  induction u with
  | nil => intro p; simp [matchesAtL]
  | cons ch rest ih =>
    intro p
    have h1 : p + (ch :: rest).length = p + 1 + rest.length := by
      simp only [List.length_cons]
      omega
    rw [List.cons_append, h1]
    show ((charAtL t p == ch) && matchesAtL t (p + 1) (rest ++ v)) = _
    rw [ih (p + 1)]
    show _ = (((charAtL t p == ch) && matchesAtL t (p + 1) rest) && matchesAtL t (p + 1 + rest.length) v)
    rw [Bool.and_assoc]

/-- A fully matched, null-free, nonempty word lies inside the text. -/
lemma matchesAtL_bound (t : List Char) : ∀ (w : List Char) (p : Nat),
    matchesAtL t p w = true → (∀ ch ∈ w, ch ≠ nullc) → w ≠ [] →
    p + w.length ≤ t.length := by
  intro w
  induction w with
  | nil => intro p _ _ hne; exact absurd rfl hne
  | cons ch rest ih =>
    intro p hm hnn _
    have hsp : charAtL t p = ch ∧ matchesAtL t (p + 1) rest = true := by
      simpa [matchesAtL] using hm
    have hlt : p < t.length :=
      charAtL_ne_null_lt t p (by rw [hsp.1]; exact hnn ch (List.mem_cons_self ch rest))
    cases rest with
    | nil =>
      simp only [List.length_cons, List.length_nil]
      omega
    | cons ch2 rest2 =>
      have hih := ih (p + 1) hsp.2 (fun x hx => hnn x (List.mem_cons_of_mem ch hx)) (by simp)
      simp only [List.length_cons] at hih ⊢
      omega

/-- Characters of a balanced body are never the null terminator (given
non-null delimiters). -/
lemma balBody_chars {o c : Char} (ho : o ≠ nullc) (hc : c ≠ nullc) :
    ∀ {b : List Char}, BalBody o c b → ∀ ch ∈ b, ch ≠ nullc := by
  intro b hb
  induction hb with
  | nil => simp
  | chr ch rest h1 h2 h3 hrest ih =>
    intro x hx
    rcases List.mem_cons.mp hx with h | h
    · rw [h]; exact h3
    · exact ih x h
  | nest inner rest hin hre ih1 ih2 =>
    intro x hx
    rcases List.mem_cons.mp hx with h | h
    · rw [h]; exact ho
    · rcases List.mem_append.mp h with h | h
      · rcases List.mem_append.mp h with h | h
        · exact ih1 x h
        · rw [List.mem_singleton.mp h]; exact hc
      · exact ih2 x h

/-- If the subject text at the cursor continues with a balanced body `b`
followed by the closing delimiter, the interior loop of `sno_bal` consumes
exactly `b` and the close, succeeding with `view = [start, cursor + |b| + 1)`
— provided the fuel covers the recursion depth. -/
lemma balLoopF_of_body {o c : Char} (ho : o ≠ nullc) (hoc : o ≠ c) :
    ∀ {b : List Char}, BalBody o c b →
    ∀ (fuel : Nat) (s : sno_subject_t) (start : Nat),
      matchesAtL s.text s.view_end (b ++ [c]) = true →
      2 * b.length + 1 ≤ fuel →
      sno_balLoopF fuel s o c start =
        (true, { s with view_begin := start, view_end := s.view_end + b.length + 1 }) := by
  intro b hb
  induction hb with
  | nil =>
    intro fuel s start hm hf
    obtain ⟨f, rfl⟩ : ∃ f, fuel = f + 1 := ⟨fuel - 1, by omega⟩
    have hcc : charAt s s.view_end = c := by
      simpa [matchesAtL, charAt] using hm
    have e : sno_lit s c =
        (true, { s with view_begin := s.view_end, view_end := s.view_end + 1 }) := by
      simp only [sno_lit]
      rw [if_neg (fun hh => hh hcc)]
    have eF : sno_balLoopF (f + 1) s o c start =
        (true, { { s with view_begin := s.view_end, view_end := s.view_end + 1 } with
                 view_begin := start }) := by
      simp only [sno_balLoopF]
      rw [if_neg (fun hh => hh.2 hcc), e]
    rw [eF]
    rfl
  | chr ch rest h1 h2 h3 hrest ih =>
    intro fuel s start hm hf
    have hlen : (ch :: rest).length = rest.length + 1 := by simp
    obtain ⟨f, rfl⟩ : ∃ f, fuel = f + 1 := ⟨fuel - 1, by omega⟩
    rw [List.cons_append] at hm
    have hsp : charAtL s.text s.view_end = ch ∧
        matchesAtL s.text (s.view_end + 1) (rest ++ [c]) = true := by
      simpa [matchesAtL] using hm
    obtain ⟨hch1, hch2⟩ := hsp
    have hcOne : charAt s s.view_end = ch := hch1
    have hcnd : charAt s s.view_end ≠ nullc ∧ charAt s s.view_end ≠ c := by
      rw [hcOne]; exact ⟨h3, h2⟩
    have hcho : ¬ charAt s s.view_end = o := by rw [hcOne]; exact h1
    have e : sno_notany s [o, c] =
        (true, { s with view_begin := s.view_end, view_end := s.view_end + 1 }) := by
      simp only [sno_notany]
      rw [if_neg]
      rintro (hx | hx)
      · rw [hcOne] at hx; exact h3 hx
      · rcases (by simpa using hx : charAt s s.view_end = o ∨ charAt s s.view_end = c)
          with h4 | h4
        · rw [hcOne] at h4; exact h1 h4
        · rw [hcOne] at h4; exact h2 h4
    have eF : sno_balLoopF (f + 1) s o c start =
        sno_balLoopF f { s with view_begin := s.view_end, view_end := s.view_end + 1 } o c
          start := by
      simp only [sno_balLoopF]
      rw [if_pos hcnd, if_neg hcho, e]
    rw [eF]
    rw [show s.view_end + (ch :: rest).length + 1 = s.view_end + 1 + rest.length + 1 from by
      simp only [List.length_cons]; omega]
    exact ih f { s with view_begin := s.view_end, view_end := s.view_end + 1 } start hch2
      (by omega)
  | nest inner rest hin hre ihInner ihRest =>
    intro fuel s start hm hf
    have hlb : (o :: inner ++ [c] ++ rest).length = inner.length + rest.length + 2 := by
      simp only [List.length_cons, List.length_append, List.length_nil]
      omega
    obtain ⟨f, rfl⟩ : ∃ f, fuel = f + 1 := ⟨fuel - 1, by omega⟩
    have hm2 : matchesAtL s.text s.view_end (o :: ((inner ++ [c]) ++ (rest ++ [c]))) = true := by
      have hassoc : (o :: inner ++ [c] ++ rest) ++ [c] =
          o :: ((inner ++ [c]) ++ (rest ++ [c])) := by
        simp [List.append_assoc]
      rwa [hassoc] at hm
    have hsp : charAtL s.text s.view_end = o ∧
        matchesAtL s.text (s.view_end + 1) ((inner ++ [c]) ++ (rest ++ [c])) = true := by
      simpa [matchesAtL] using hm2
    obtain ⟨hco, hrest2⟩ := hsp
    rw [matchesAtL_append] at hrest2
    simp only [Bool.and_eq_true] at hrest2
    obtain ⟨hmInner, hmRest⟩ := hrest2
    have hcnd : charAt s s.view_end ≠ nullc ∧ charAt s s.view_end ≠ c := by
      rw [show charAt s s.view_end = o from hco]
      exact ⟨ho, hoc⟩
    have hcho : charAt s s.view_end = o := hco
    obtain ⟨g, rfl⟩ : ∃ g, f = g + 1 := ⟨f - 1, by omega⟩
    have elit : sno_lit s o =
        (true, { s with view_begin := s.view_end, view_end := s.view_end + 1 }) := by
      simp only [sno_lit]
      rw [if_neg (fun hh => hh hcho)]
    have eInner := ihInner g
      { s with view_begin := s.view_end, view_end := s.view_end + 1 } s.view_end hmInner
      (by omega)
    have eBal : sno_balF (g + 1) s o c =
        (true, { s with view_begin := s.view_end,
                        view_end := s.view_end + 1 + inner.length + 1 }) := by
      simp only [sno_balF, elit]
      rw [eInner]
    have eF : sno_balLoopF (g + 1 + 1) s o c start =
        sno_balLoopF (g + 1)
          { s with view_begin := s.view_end,
                   view_end := s.view_end + 1 + inner.length + 1 } o c start := by
      simp only [sno_balLoopF]
      rw [if_pos hcnd, if_pos hcho, eBal]
    rw [eF]
    have hmRest2 : matchesAtL s.text (s.view_end + 1 + inner.length + 1) (rest ++ [c]) = true := by
      have harith : s.view_end + 1 + (inner ++ [c]).length =
          s.view_end + 1 + inner.length + 1 := by
        simp only [List.length_append, List.length_cons, List.length_nil]
        omega
      rwa [harith] at hmRest
    have eLoop := ihRest (g + 1)
      { s with view_begin := s.view_end, view_end := s.view_end + 1 + inner.length + 1 }
      start hmRest2 (by omega)
    rw [show s.view_end + (o :: inner ++ [c] ++ rest).length + 1 =
        s.view_end + 1 + inner.length + 1 + rest.length + 1 from by
      simp only [List.length_cons, List.length_append, List.length_nil]
      omega]
    exact eLoop

/-- C2 — `sno_bal` matches one complete balanced expression: if the subject
text at the current cursor continues with `o :: b ++ [c]` for a balanced
body `b` (delimiters being real, distinct characters), `sno_bal(s, o, c)`
returns `true` and sets the View to the span from the pre-call cursor
through the position just past the consumed close — both delimiters
included. -/
theorem sno_bal_matches_balanced (s : sno_subject_t) (o c : Char) (b : List Char)
    (ho : o ≠ nullc) (hc : c ≠ nullc) (hoc : o ≠ c) (hb : BalBody o c b)
    (hm : matchesAt s s.view_end (o :: b ++ [c]) = true) :
    sno_bal s o c =
      (true, { s with view_begin := s.view_end, view_end := s.view_end + (b.length + 2) }) := by
  have hw : ∀ ch ∈ (o :: b ++ [c]), ch ≠ nullc := by
    intro x hx
    rcases List.mem_cons.mp hx with h | h
    · rw [h]; exact ho
    · rcases List.mem_append.mp h with h | h
      · exact balBody_chars ho hc hb x h
      · rw [List.mem_singleton.mp h]; exact hc
  have hbound := matchesAtL_bound s.text (o :: b ++ [c]) s.view_end hm hw (by simp)
  have hlen : (o :: b ++ [c]).length = b.length + 2 := by
    simp only [List.length_cons, List.length_append, List.length_nil]
  rw [hlen] at hbound
  have hsp : charAtL s.text s.view_end = o ∧
      matchesAtL s.text (s.view_end + 1) (b ++ [c]) = true := by
    simpa [matchesAt, matchesAtL] using hm
  obtain ⟨hco, hmb⟩ := hsp
  have elit : sno_lit s o =
      (true, { s with view_begin := s.view_end, view_end := s.view_end + 1 }) := by
    simp only [sno_lit]
    rw [if_neg (fun hh => hh hco)]
  have e1 : sno_bal s o c =
      sno_balLoopF (2 * s.text.length + 1)
        { s with view_begin := s.view_end, view_end := s.view_end + 1 } o c s.view_end := by
    show sno_balF (2 * s.text.length + 2) s o c = _
    rw [show 2 * s.text.length + 2 = (2 * s.text.length + 1) + 1 from rfl]
    simp only [sno_balF, elit]
  rw [e1]
  rw [show s.view_end + (b.length + 2) = s.view_end + 1 + b.length + 1 from by omega]
  exact balLoopF_of_body ho hoc hb (2 * s.text.length + 1)
    { s with view_begin := s.view_end, view_end := s.view_end + 1 } s.view_end hmb (by omega)

/-- Witness for `sno_bal_matches_balanced`: on subject `"A(B(C)D)E"` with
the literal `A` already matched, `sno_bal '(' ')'` succeeds with the View
spanning offsets `[1, 8)`, i.e. exactly the text `"(B(C)D)"` including both
outer delimiters. -/
theorem sno_bal_matches_balanced_witness :
    sno_bal ((sno_lit (sno_bind "A(B(C)D)E".toList) 'A').2) '(' ')' =
      (true, { (sno_lit (sno_bind "A(B(C)D)E".toList) 'A').2 with
               view_begin := 1, view_end := 8 }) ∧
    ((sno_bind "A(B(C)D)E".toList).text.drop 1).take 7 = "(B(C)D)".toList := by
  constructor
  · have hbody : BalBody '(' ')' ("B(C)D".toList) :=
      BalBody.chr 'B' _ (by decide) (by decide) (by decide)
        (BalBody.nest ['C'] ['D']
          (BalBody.chr 'C' [] (by decide) (by decide) (by decide) BalBody.nil)
          (BalBody.chr 'D' [] (by decide) (by decide) (by decide) BalBody.nil))
    exact sno_bal_matches_balanced ((sno_lit (sno_bind "A(B(C)D)E".toList) 'A').2) '(' ')'
      ("B(C)D".toList) (by decide) (by decide) (by decide) hbody (by decide)
  · decide

end SNOC
